import Mathlib

/-!
Verification of the juicefs sync engine (pkg/sync/sync.go) against its
natural-language specification.  The Go code is shallowly embedded below:
pure decision logic becomes Lean functions, channel streams become lists
(with `none` modelling the nil failure sentinel), machine integers become
`Int`/`Nat`, and the happy-path control flow of effectful routines becomes
explicit operation traces.
-/

/-- Object descriptor, from `object.Object` as used by sync.go: a key,
a size, an mtime (the merger compares `Mtime().Unix()`, so seconds), the
directory and symlink flags, and the POSIX attributes consulted by
`needCopyPerms` (mode, owner, group). -/
structure SyncObj where
  key : String
  size : Int
  mtime : Int
  isDir : Bool
  isSymlink : Bool
  mode : Nat
  owner : String
  group : String
deriving DecidableEq, Repr

/-- The configuration flags consulted by the merger (`produce`,
`handleExtraObject`) and the producers, from `Config`.  `limit` is the
shared `Limit` budget (negative means unlimited). -/
structure SyncConfig where
  dirs : Bool
  existing : Bool
  ignoreExisting : Bool
  forceUpdate : Bool
  update : Bool
  checkAll : Bool
  deleteSrc : Bool
  deleteDst : Bool
  perms : Bool
  limit : Int
deriving DecidableEq, Repr

/-- Transcription of `needCopyPerms` (sync.go): the POSIX attributes of the
two objects differ. -/
def needCopyPerms (o1 o2 : SyncObj) : Bool :=
  o2.mode != o1.mode || o2.owner != o1.owner || o2.group != o1.group

/-- The per-source-key decision of the merger.  `copyObj` is sending the
object itself on the task channel; `chksum`, `delSrc`, `copyPerms` are the
CHECKSUM, DELETE_SRC and COPY_PERMS sentinel markers; `delaySrcDir` is
stashing a source directory for deferred deletion; `skipObj` is `skipIt`. -/
inductive SyncAction where
  | copyObj
  | skipObj
  | chksum
  | delSrc
  | delaySrcDir
  | copyPerms
deriving DecidableEq, Repr

/-- Transcription of the decision block of `produce` (sync.go lines
1137-1171) as a pure function of the current source object and the
buffered destination object.  The merger only reaches this point with
`dstobj = none` or `obj.key ≤ dstobj.key`. -/
def decideSrc (cfg : SyncConfig) (obj : SyncObj) (dstobj : Option SyncObj) : SyncAction :=
  match dstobj with
  | none => if cfg.existing then .skipObj else .copyObj
  | some d =>
    if obj.key < d.key then
      if cfg.existing then .skipObj else .copyObj
    else
      if cfg.ignoreExisting then .skipObj
      else if cfg.forceUpdate || (cfg.update && decide (obj.mtime > d.mtime)) ||
          (!cfg.update && obj.size != d.size) then .copyObj
      else if cfg.update && decide (obj.mtime < d.mtime) then .skipObj
      else if cfg.checkAll then .chksum
      else if cfg.deleteSrc then
        if obj.isDir then .delaySrcDir else .delSrc
      else if cfg.perms && needCopyPerms obj d then .copyPerms
      else .skipObj

set_option maxHeartbeats 2000000 in
/-- C1: the merger takes exactly one decision per source key, and the
decision follows the specified table order.  Each possible action is
characterized by a mutually exclusive condition: with no destination
object at or below the key the decision is skip-iff-Existing else copy;
at equal keys the eight table rows resolve in their stated priority
order. -/
theorem produce_decision_table (cfg : SyncConfig) (obj d : SyncObj)
    (hk : obj.key = d.key) :
    (decideSrc cfg obj none = (if cfg.existing then .skipObj else .copyObj)) ∧
    (∀ d2 : SyncObj, obj.key < d2.key →
      decideSrc cfg obj (some d2) = (if cfg.existing then .skipObj else .copyObj)) ∧
    (decideSrc cfg obj (some d) = .copyObj ↔
      ¬cfg.ignoreExisting ∧ (cfg.forceUpdate ∨ (cfg.update ∧ obj.mtime > d.mtime) ∨
        (¬cfg.update ∧ obj.size ≠ d.size))) ∧
    (decideSrc cfg obj (some d) = .chksum ↔
      ¬cfg.ignoreExisting ∧
      ¬(cfg.forceUpdate ∨ (cfg.update ∧ obj.mtime > d.mtime) ∨
        (¬cfg.update ∧ obj.size ≠ d.size)) ∧
      ¬(cfg.update ∧ obj.mtime < d.mtime) ∧ cfg.checkAll) ∧
    (decideSrc cfg obj (some d) = .delSrc ↔
      ¬cfg.ignoreExisting ∧
      ¬(cfg.forceUpdate ∨ (cfg.update ∧ obj.mtime > d.mtime) ∨
        (¬cfg.update ∧ obj.size ≠ d.size)) ∧
      ¬(cfg.update ∧ obj.mtime < d.mtime) ∧ ¬cfg.checkAll ∧
      cfg.deleteSrc ∧ ¬obj.isDir) ∧
    (decideSrc cfg obj (some d) = .delaySrcDir ↔
      ¬cfg.ignoreExisting ∧
      ¬(cfg.forceUpdate ∨ (cfg.update ∧ obj.mtime > d.mtime) ∨
        (¬cfg.update ∧ obj.size ≠ d.size)) ∧
      ¬(cfg.update ∧ obj.mtime < d.mtime) ∧ ¬cfg.checkAll ∧
      cfg.deleteSrc ∧ obj.isDir) ∧
    (decideSrc cfg obj (some d) = .copyPerms ↔
      ¬cfg.ignoreExisting ∧
      ¬(cfg.forceUpdate ∨ (cfg.update ∧ obj.mtime > d.mtime) ∨
        (¬cfg.update ∧ obj.size ≠ d.size)) ∧
      ¬(cfg.update ∧ obj.mtime < d.mtime) ∧ ¬cfg.checkAll ∧
      ¬cfg.deleteSrc ∧ cfg.perms ∧ needCopyPerms obj d) ∧
    (decideSrc cfg obj (some d) = .skipObj ↔
      cfg.ignoreExisting ∨
      (¬cfg.ignoreExisting ∧
       ¬(cfg.forceUpdate ∨ (cfg.update ∧ obj.mtime > d.mtime) ∨
         (¬cfg.update ∧ obj.size ≠ d.size)) ∧
       ((cfg.update ∧ obj.mtime < d.mtime) ∨
        (¬(cfg.update ∧ obj.mtime < d.mtime) ∧ ¬cfg.checkAll ∧ ¬cfg.deleteSrc ∧
         ¬(cfg.perms ∧ needCopyPerms obj d))))) := by
  have hlt : ¬ obj.key < d.key := by
    rw [hk]; exact lt_irrefl d.key
  have boolEqFalse : ∀ b : Bool, (b = false) = ¬ (b = true) := by
    intro b; cases b <;> simp
  refine ⟨rfl, fun d2 h2 => by simp [decideSrc, h2], ?_, ?_, ?_, ?_, ?_, ?_⟩ <;>
    · simp only [decideSrc, if_neg hlt]
      split_ifs <;>
        simp_all only [Bool.or_eq_true, Bool.and_eq_true, Bool.not_eq_true',
          decide_eq_true_eq, bne_iff_ne, ne_eq, boolEqFalse, iff_true, iff_false,
          not_and, not_or, not_not, not_false_iff, eq_self_iff_true] <;>
        tauto

/-- Witness for `produce_decision_table` at a concrete pair of equal-key
objects and a concrete configuration. -/
theorem produce_decision_table_witness :
    let o : SyncObj :=
      { key := "a", size := 3, mtime := 10, isDir := false, isSymlink := false,
        mode := 420, owner := "u", group := "g" }
    let d : SyncObj :=
      { key := "a", size := 4, mtime := 5, isDir := false, isSymlink := false,
        mode := 420, owner := "u", group := "g" }
    let cfg : SyncConfig :=
      { dirs := false, existing := false, ignoreExisting := false,
        forceUpdate := false, update := false, checkAll := false,
        deleteSrc := false, deleteDst := false, perms := false, limit := -1 }
    decideSrc cfg o (some d) = .copyObj ↔
      ¬cfg.ignoreExisting ∧ (cfg.forceUpdate ∨ (cfg.update ∧ o.mtime > d.mtime) ∨
        (¬cfg.update ∧ o.size ≠ d.size)) := by
  intro o d cfg
  exact (produce_decision_table cfg o d rfl).2.2.1

/-- A task sent on the task channel by the merger: the object itself for a
copy, or the object wrapped with a negative sentinel size (CHECKSUM,
DELETE_SRC, DELETE_DST, COPY_PERMS). -/
inductive SyncTask where
  | copyTask (o : SyncObj)
  | chksumTask (o : SyncObj)
  | delSrcTask (o : SyncObj)
  | delDstTask (o : SyncObj)
  | copyPermsTask (o : SyncObj)
deriving DecidableEq, Repr

/-- Observable events of a merger run: a task sent on the channel, a
skipped source object (`skipIt`), an ignored extra destination object
(`extra.Increment`), or a key stashed for deferred deletion on either
side. -/
inductive SyncEv where
  | task (t : SyncTask)
  | skipEv (o : SyncObj)
  | extraEv (o : SyncObj)
  | stashSrc (k : String)
  | stashDst (k : String)
deriving DecidableEq, Repr

/-- Return status of `produce`: nil, or the listing-failed error raised on
a nil descriptor in either stream. -/
inductive ProduceRes where
  | ok
  | listingFailed
deriving DecidableEq, Repr

/-- Transcription of `handleExtraObject` (sync.go lines 1034-1051).
Returns the emitted events, the new Limit, and whether `produce` must stop
because the decremented Limit reached zero. -/
def handleExtra (cfg : SyncConfig) (limit : Int) (d : SyncObj) :
    List SyncEv × Int × Bool :=
  if ¬cfg.deleteDst ∨ (¬cfg.dirs ∧ d.isDir) ∨ limit = 0 then
    ([SyncEv.extraEv d], limit, false)
  else
    ((if d.isDir then [SyncEv.stashDst d.key]
      else [SyncEv.task (SyncTask.delDstTask d)]),
     limit - 1, decide (limit - 1 = 0))

/-- Outcome of advancing through the destination stream up to the current
source key (the inner for-loop of `produce`, lines 1121-1134). -/
inductive AdvOut where
  | found (d : SyncObj)
  | exhausted
  | stopLimit
  | failed
deriving DecidableEq, Repr

/-- Transcription of the inner destination-advance loop of `produce`:
drop every destination key below the current source key through
`handleExtraObject`, stopping at the first key at or above it, at stream
exhaustion, at a nil sentinel, or when the Limit is used up. -/
def advanceDst (cfg : SyncConfig) (obj : SyncObj) :
    Int → List (Option SyncObj) → List SyncEv × Int × List (Option SyncObj) × AdvOut
  | limit, [] => ([], limit, [], AdvOut.exhausted)
  | limit, none :: rest => ([], limit, rest, AdvOut.failed)
  | limit, some d :: rest =>
    if obj.key ≤ d.key then ([], limit, rest, AdvOut.found d)
    else
      let r := handleExtra cfg limit d
      if r.2.2 then (r.1, r.2.1, rest, AdvOut.stopLimit)
      else
        let t := advanceDst cfg obj r.2.1 rest
        (r.1 ++ t.1, t.2)

/-- The events emitted by the bodies of the decision branches of `produce`
(lines 1137-1171). -/
def decisionEvents (a : SyncAction) (obj : SyncObj) : List SyncEv :=
  match a with
  | .copyObj => [SyncEv.task (SyncTask.copyTask obj)]
  | .skipObj => [SyncEv.skipEv obj]
  | .chksum => [SyncEv.task (SyncTask.chksumTask obj)]
  | .delSrc => [SyncEv.task (SyncTask.delSrcTask obj)]
  | .delaySrcDir => [SyncEv.stashSrc obj.key]
  | .copyPerms => [SyncEv.task (SyncTask.copyPermsTask obj)]

/-- Transcription of the final drain loop of `produce` (lines 1179-1186):
with DeleteDst set, every remaining destination object goes through
`handleExtraObject`; a nil sentinel is the listing-failed error. -/
def drainDst (cfg : SyncConfig) : Int → List (Option SyncObj) → List SyncEv × Int × ProduceRes
  | limit, [] => ([], limit, ProduceRes.ok)
  | limit, none :: _ => ([], limit, ProduceRes.listingFailed)
  | limit, some d :: rest =>
    let r := handleExtra cfg limit d
    if r.2.2 then (r.1, r.2.1, ProduceRes.ok)
    else
      let t := drainDst cfg r.2.1 rest
      (r.1 ++ t.1, t.2)

/-- Transcription of the main loop of `produce` (sync.go lines 1099-1188),
threading the buffered destination object, the shared Limit and the
remaining destination stream through each source object. -/
def produceLoop (cfg : SyncConfig) :
    Int → Option SyncObj → List (Option SyncObj) → List (Option SyncObj) →
    List SyncEv × Int × ProduceRes
  | limit, dstobj, [], dsts =>
    if cfg.deleteDst then
      match dstobj with
      | some d =>
        let r := handleExtra cfg limit d
        if r.2.2 then (r.1, r.2.1, ProduceRes.ok)
        else
          let t := drainDst cfg r.2.1 dsts
          (r.1 ++ t.1, t.2)
      | none => drainDst cfg limit dsts
    else ([], limit, ProduceRes.ok)
  | limit, _, none :: _, _ => ([], limit, ProduceRes.listingFailed)
  | limit, dstobj, some obj :: srcs, dsts =>
    if ¬cfg.dirs ∧ obj.isDir then produceLoop cfg limit dstobj srcs dsts
    else if limit = 0 then ([], limit, ProduceRes.ok)
    else
      let l1 := if 0 ≤ limit then limit - 1 else limit
      let a : List SyncEv × Int × Option SyncObj × Bool :=
        match dstobj with
        | some d =>
          if d.key < obj.key then
            let r := handleExtra cfg l1 d
            (r.1, r.2.1, none, r.2.2)
          else ([], l1, some d, false)
        | none => ([], l1, none, false)
      if a.2.2.2 then (a.1, a.2.1, ProduceRes.ok)
      else
        match a.2.2.1 with
        | some d =>
          let evs := decisionEvents (decideSrc cfg obj (some d)) obj
          let dst2 := if obj.key < d.key then some d else none
          let t := produceLoop cfg a.2.1 dst2 srcs dsts
          (a.1 ++ evs ++ t.1, t.2)
        | none =>
          let adv := advanceDst cfg obj a.2.1 dsts
          match adv.2.2.2 with
          | AdvOut.failed => (a.1 ++ adv.1, adv.2.1, ProduceRes.listingFailed)
          | AdvOut.stopLimit => (a.1 ++ adv.1, adv.2.1, ProduceRes.ok)
          | AdvOut.exhausted =>
            let evs := decisionEvents (decideSrc cfg obj none) obj
            let t := produceLoop cfg adv.2.1 none srcs adv.2.2.1
            (a.1 ++ adv.1 ++ evs ++ t.1, t.2)
          | AdvOut.found d =>
            let evs := decisionEvents (decideSrc cfg obj (some d)) obj
            let dst2 := if obj.key < d.key then some d else none
            let t := produceLoop cfg adv.2.1 dst2 srcs adv.2.2.1
            (a.1 ++ adv.1 ++ evs ++ t.1, t.2)

/-- Transcription of `filter` (lines 1255-1276): forward objects passing
the predicate, drop the rest; a nil sentinel is forwarded and the stream
ends there.  The size/time/rule tests of `filterKey` are abstracted as the
predicate, whose internals none of the claims touch. -/
def filterStream (p : SyncObj → Bool) : List (Option SyncObj) → List (Option SyncObj)
  | [] => []
  | none :: _ => [none]
  | some o :: rest => if p o then some o :: filterStream p rest else filterStream p rest

/-- Transcription of `produce` (lines 1076-1189): filter both streams,
then run the merge loop with an empty buffered destination object and the
configured Limit. -/
def produceModel (cfg : SyncConfig) (p : SyncObj → Bool)
    (srcs dsts : List (Option SyncObj)) : List SyncEv × Int × ProduceRes :=
  produceLoop cfg cfg.limit none (filterStream p srcs) (filterStream p dsts)

/-- Transcription of the ForceUpdate wiring of `startSingleProducer`
(lines 1062-1072) and `startProducer` (lines 1602-1614): with ForceUpdate
set the destination store is never listed and the merger is fed a closed
empty channel. -/
def startSingleProducerModel (cfg : SyncConfig) (p : SyncObj → Bool)
    (srcListing dstListing : List (Option SyncObj)) : List SyncEv × Int × ProduceRes :=
  produceModel cfg p srcListing (if cfg.forceUpdate then [] else dstListing)

/-- Reference merge for an empty destination stream: every source object
is decided directly against a nil destination object. -/
def produceNoDst (cfg : SyncConfig) : Int → List (Option SyncObj) → List SyncEv × Int × ProduceRes
  | limit, [] => ([], limit, ProduceRes.ok)
  | limit, none :: _ => ([], limit, ProduceRes.listingFailed)
  | limit, some obj :: srcs =>
    if ¬cfg.dirs ∧ obj.isDir then produceNoDst cfg limit srcs
    else if limit = 0 then ([], limit, ProduceRes.ok)
    else
      let l1 := if 0 ≤ limit then limit - 1 else limit
      let evs := decisionEvents (decideSrc cfg obj none) obj
      let t := produceNoDst cfg l1 srcs
      (evs ++ t.1, t.2)

/-- At a nil destination object the merger either copies or skips. -/
theorem decideSrc_none_cases (cfg : SyncConfig) (obj : SyncObj) :
    decideSrc cfg obj none = SyncAction.copyObj ∨
    decideSrc cfg obj none = SyncAction.skipObj := by
  by_cases h : cfg.existing = true <;> simp [decideSrc, h]

/-- The events of a nil-destination decision are a copy task or a skip. -/
theorem decisionEvents_none_mem (cfg : SyncConfig) (obj : SyncObj) (ev : SyncEv)
    (h : ev ∈ decisionEvents (decideSrc cfg obj none) obj) :
    (∃ o, ev = SyncEv.task (SyncTask.copyTask o)) ∨ (∃ o, ev = SyncEv.skipEv o) := by
  rcases decideSrc_none_cases cfg obj with hc | hc <;> rw [hc] at h <;>
    simp only [decisionEvents, List.mem_singleton] at h <;> subst h
  · exact Or.inl ⟨obj, rfl⟩
  · exact Or.inr ⟨obj, rfl⟩

/-- The merge loop over an empty destination stream reduces to deciding
every source object against a nil destination object. -/
theorem produceLoop_empty_dst (cfg : SyncConfig) :
    ∀ (srcs : List (Option SyncObj)) (limit : Int),
    produceLoop cfg limit none srcs [] = produceNoDst cfg limit srcs := by
  intro srcs
  induction srcs with
  | nil =>
    intro limit
    simp only [produceLoop, produceNoDst, drainDst]
    split_ifs <;> rfl
  | cons h t ih =>
    intro limit
    cases h with
    | none => rfl
    | some obj =>
      simp only [produceLoop, produceNoDst, advanceDst]
      split_ifs <;> simp_all [ih]

/-- Over an empty destination stream the merger only ever copies or skips:
no extra objects, no stashes, no deletion tasks. -/
theorem produceNoDst_events (cfg : SyncConfig) :
    ∀ (srcs : List (Option SyncObj)) (limit : Int),
    ∀ ev ∈ (produceNoDst cfg limit srcs).1,
      (∃ o, ev = SyncEv.task (SyncTask.copyTask o)) ∨ (∃ o, ev = SyncEv.skipEv o) := by
  intro srcs
  induction srcs with
  | nil => intro limit ev hev; simp [produceNoDst] at hev
  | cons h t ih =>
    intro limit ev hev
    cases h with
    | none => simp [produceNoDst] at hev
    | some obj =>
      simp only [produceNoDst] at hev
      split_ifs at hev
      · exact ih limit ev hev
      · simp at hev
      all_goals
        simp only [List.mem_append] at hev
        rcases hev with hev | hev
      · exact decisionEvents_none_mem cfg obj ev hev
      · exact ih _ ev hev
      · exact decisionEvents_none_mem cfg obj ev hev
      · exact ih _ ev hev

/-- C10: with ForceUpdate set, the destination store is never listed: the
merger runs against a closed empty destination stream, every source key is
decided against a nil destination object (so only copy or skip events
occur), and no extra object, DELETE_DST task or destination stash is ever
produced, even when DeleteDst is also set. -/
theorem forceUpdate_never_lists_dst (cfg : SyncConfig) (p : SyncObj → Bool)
    (srcs dstListing : List (Option SyncObj)) (h : cfg.forceUpdate = true) :
    startSingleProducerModel cfg p srcs dstListing
      = produceNoDst cfg cfg.limit (filterStream p srcs) ∧
    ∀ ev ∈ (startSingleProducerModel cfg p srcs dstListing).1,
      (∃ o, ev = SyncEv.task (SyncTask.copyTask o)) ∨ (∃ o, ev = SyncEv.skipEv o) := by
  have he : startSingleProducerModel cfg p srcs dstListing
      = produceNoDst cfg cfg.limit (filterStream p srcs) := by
    simp only [startSingleProducerModel, produceModel, h, if_pos]
    exact produceLoop_empty_dst cfg (filterStream p srcs) cfg.limit
  refine ⟨he, ?_⟩
  rw [he]
  exact produceNoDst_events cfg (filterStream p srcs) cfg.limit

/-- Witness for `forceUpdate_never_lists_dst` on a one-object source
stream, a nonempty would-be destination listing and DeleteDst set. -/
theorem forceUpdate_never_lists_dst_witness :
    let cfg : SyncConfig :=
      { dirs := false, existing := false, ignoreExisting := false,
        forceUpdate := true, update := false, checkAll := false,
        deleteSrc := false, deleteDst := true, perms := false, limit := -1 }
    let oA : SyncObj :=
      { key := "a", size := 1, mtime := 0, isDir := false, isSymlink := false,
        mode := 420, owner := "u", group := "g" }
    let oB : SyncObj :=
      { key := "b", size := 2, mtime := 0, isDir := false, isSymlink := false,
        mode := 420, owner := "u", group := "g" }
    startSingleProducerModel cfg (fun _ => true) [some oA] [some oB]
      = produceNoDst cfg cfg.limit (filterStream (fun _ => true) [some oA]) := by
  intro cfg oA oB
  exact (forceUpdate_never_lists_dst cfg (fun _ => true) [some oA] [some oB] rfl).1

/-- A destination directory object used in merger counterexamples. -/
def dirObjD : SyncObj :=
  { key := "d/", size := 0, mtime := 0, isDir := true, isSymlink := false,
    mode := 493, owner := "u", group := "g" }

/-- C5 counterexample: with DeleteDst set but Dirs unset (the default), an
extra destination directory key is not stashed for late deletion and gets
no DELETE_DST task: the merger ignores it and counts it as extra, contrary
to the claim that directory keys are stashed whenever DeleteDst is set. -/
theorem deleteDst_dir_not_stashed :
    let cfg : SyncConfig :=
      { dirs := false, existing := false, ignoreExisting := false,
        forceUpdate := false, update := false, checkAll := false,
        deleteSrc := false, deleteDst := true, perms := false, limit := -1 }
    produceModel cfg (fun _ => true) [] [some dirObjD]
      = ([SyncEv.extraEv dirObjD], -1, ProduceRes.ok) ∧
    SyncEv.stashDst dirObjD.key ∉ (produceModel cfg (fun _ => true) [] [some dirObjD]).1 ∧
    SyncEv.task (SyncTask.delDstTask dirObjD) ∉
      (produceModel cfg (fun _ => true) [] [some dirObjD]).1 := by
  intro cfg
  refine ⟨by decide, by decide, by decide⟩

/-- C5 (amended): an extra destination object is ignored and counted as
extra when DeleteDst is unset, when it is a directory and Dirs is unset,
or when the Limit is exhausted; otherwise the Limit is charged and the
object is stashed (directories) or sent as a DELETE_DST task (files).
After the source stream is exhausted the remaining destination objects are
drained through this handler only when DeleteDst is set; with DeleteDst
unset they are not read at all and produce no events.  Mid-stream,
destination keys below the current source key go through the same
handler. -/
theorem extra_object_handling (cfg : SyncConfig) (limit : Int) (d : SyncObj)
    (dsts : List (Option SyncObj)) (dstobj : Option SyncObj) :
    (¬cfg.deleteDst ∨ (¬cfg.dirs ∧ d.isDir) ∨ limit = 0 →
       handleExtra cfg limit d = ([SyncEv.extraEv d], limit, false)) ∧
    (cfg.deleteDst = true → (cfg.dirs ∨ ¬d.isDir) → limit ≠ 0 →
       handleExtra cfg limit d =
         ((if d.isDir then [SyncEv.stashDst d.key]
           else [SyncEv.task (SyncTask.delDstTask d)]),
          limit - 1, decide (limit - 1 = 0))) ∧
    (cfg.deleteDst = true → produceLoop cfg limit none [] dsts = drainDst cfg limit dsts) ∧
    (cfg.deleteDst = false → produceLoop cfg limit dstobj [] dsts = ([], limit, ProduceRes.ok)) ∧
    (drainDst cfg limit (some d :: dsts) =
      (let r := handleExtra cfg limit d
       if r.2.2 then (r.1, r.2.1, ProduceRes.ok)
       else
         let t := drainDst cfg r.2.1 dsts
         (r.1 ++ t.1, t.2))) ∧
    (∀ obj rest, d.key < obj.key →
       advanceDst cfg obj limit (some d :: rest) =
         (let r := handleExtra cfg limit d
          if r.2.2 then (r.1, r.2.1, rest, AdvOut.stopLimit)
          else
            let t := advanceDst cfg obj r.2.1 rest
            (r.1 ++ t.1, t.2))) := by
  refine ⟨?_, ?_, ?_, ?_, rfl, ?_⟩
  · intro hcond
    simp only [handleExtra, if_pos hcond]
  · intro h1 h2 h3
    have hcond : ¬(¬cfg.deleteDst ∨ (¬cfg.dirs ∧ d.isDir) ∨ limit = 0) := by
      push_neg
      refine ⟨by simp [h1], ?_, h3⟩
      intro hd
      rcases h2 with h2 | h2
      · exact absurd h2 hd
      · intro hdir; exact absurd hdir h2
    simp only [handleExtra, if_neg hcond]
  · intro h1
    simp only [produceLoop, if_pos (by simp [h1] : (cfg.deleteDst : Prop))]
  · intro h1
    simp only [produceLoop, h1]
    rfl
  · intro obj rest hlt
    simp only [advanceDst, if_neg (not_le.mpr hlt)]

/-- Witness for `extra_object_handling`: a concrete extra destination file
with DeleteDst set and available Limit becomes a DELETE_DST task. -/
theorem extra_object_handling_witness :
    let cfg : SyncConfig :=
      { dirs := false, existing := false, ignoreExisting := false,
        forceUpdate := false, update := false, checkAll := false,
        deleteSrc := false, deleteDst := true, perms := false, limit := -1 }
    let oC : SyncObj :=
      { key := "c", size := 7, mtime := 0, isDir := false, isSymlink := false,
        mode := 420, owner := "u", group := "g" }
    handleExtra cfg 5 oC = ([SyncEv.task (SyncTask.delDstTask oC)], 4, false) := by
  intro cfg oC
  have h := (extra_object_handling cfg 5 oC [] none).2.1 rfl
    (Or.inr (by decide)) (by decide)
  simpa using h

/-- The reflected generator polynomial of CRC32C (Castagnoli), the table
built by `crc32.MakeTable(crc32.Castagnoli)` in sync.go. -/
def crcPoly : Nat := 0x82F63B78

/-- The 32-bit all-ones mask used for the pre- and post-inversion of
`crc32.Update`. -/
def crcMask : Nat := 0xFFFFFFFF

/-- One bit step of the reflected CRC32 update: shift right and
conditionally xor the polynomial. -/
def crcBit (s : Nat) : Nat :=
  (s >>> 1) ^^^ (if s.testBit 0 then crcPoly else 0)

/-- Iterated bit steps. -/
def crcBitN : Nat → Nat → Nat
  | 0, s => s
  | n + 1, s => crcBitN n (crcBit s)

/-- Mixing one data byte into the state: xor it in, then shift it through
eight bit steps.  This is the bit-serial semantics of the table-driven
update in Go `hash/crc32`. -/
def crcByte (s d : Nat) : Nat := crcBitN 8 (s ^^^ d)

/-- The raw (inversion-free) CRC register run over a byte list. -/
def crcRaw (s : Nat) (data : List Nat) : Nat := data.foldl crcByte s

/-- Semantics of `crc32.Update(c, table, data)`: invert the register,
process the bytes, invert again. -/
def crcUpdate (c : Nat) (data : List Nat) : Nat :=
  crcRaw (c ^^^ crcMask) data ^^^ crcMask

/-- CRC32C of a byte sequence from a zero initial checksum, as accumulated
by `chksumReader` starting at `chksum = 0`. -/
def crc32c (data : List Nat) : Nat := crcUpdate 0 data

/-- Model of the external `crc32combine.CRC32Combine` for the Castagnoli
polynomial (vimeo/go-util, not part of this repository): the linear map
that shifts `crcA` through `lenB` zero bytes (with the affine zero-byte
contribution cancelled) and xors `crcB`.  The library computes the same
map by GF(2) matrix squaring; the spec glossary characterizes combine as
producing `CRC(A||B)` from `CRC(A)`, `CRC(B)` and `|B|`, which is exactly
`crc32_combine_correct` below. -/
def crc32Combine (crcA crcB : Nat) (lenB : Nat) : Nat :=
  crcUpdate crcA (List.replicate lenB 0) ^^^
    crcUpdate 0 (List.replicate lenB 0) ^^^ crcB

/-- The per-part fold of `doCopyMultiple` (sync.go lines 787-795): the
first part's checksum, then `CRC32Combine` with each later part's checksum
and exact length, in part-index order. -/
def partsCombine : List (List Nat) → Nat
  | [] => 0
  | p :: ps => ps.foldl (fun acc q => crc32Combine acc (crc32c q) q.length) (crc32c p)

/-- The split of an object into consecutive parts of size `sz` (the last
part may be short), as done by `doCopyMultiple` over offsets
`i*partSize`. -/
def chunkList (sz : Nat) : List Nat → List (List Nat)
  | [] => []
  | x :: xs => (x :: xs.take (sz - 1)) :: chunkList sz (xs.drop (sz - 1))
termination_by l => l.length
decreasing_by
  simp only [List.length_cons, List.length_drop]
  omega

theorem natXor_left_comm (a b c : Nat) : a ^^^ (b ^^^ c) = b ^^^ (a ^^^ c) := by
  rw [← Nat.xor_assoc, Nat.xor_comm a b, Nat.xor_assoc]

theorem natXor_cancel_right (a b : Nat) : (a ^^^ b) ^^^ b = a := by
  rw [Nat.xor_assoc, Nat.xor_self, Nat.xor_zero]

theorem natXor_cancel_left (a b : Nat) : a ^^^ (a ^^^ b) = b := by
  rw [← Nat.xor_assoc, Nat.xor_self, Nat.zero_xor]

theorem natShiftRight_xor (a b n : Nat) : (a ^^^ b) >>> n = (a >>> n) ^^^ (b >>> n) := by
  apply Nat.eq_of_testBit_eq
  intro i
  simp [Nat.testBit_shiftRight, Nat.testBit_xor]

/-- The CRC bit step is linear over xor. -/
theorem crcBit_xor (a b : Nat) : crcBit (a ^^^ b) = crcBit a ^^^ crcBit b := by
  unfold crcBit
  rw [natShiftRight_xor, Nat.testBit_xor a b 0]
  rcases h1 : a.testBit 0 <;> rcases h2 : b.testBit 0 <;>
    simp only [h1, h2, Bool.xor_false, Bool.xor_true, Bool.false_xor, Bool.true_xor,
      if_true, if_false] <;>
    simp [Nat.xor_assoc, Nat.xor_comm, natXor_left_comm, Nat.xor_self, Nat.xor_zero,
      Nat.zero_xor, natXor_cancel_left]

theorem crcBit_zero : crcBit 0 = 0 := by decide

theorem crcBitN_xor (n : Nat) : ∀ a b, crcBitN n (a ^^^ b) = crcBitN n a ^^^ crcBitN n b := by
  induction n with
  | zero => intro a b; rfl
  | succ m ih => intro a b; simp only [crcBitN, crcBit_xor, ih]

theorem crcBitN_zero (n : Nat) : crcBitN n 0 = 0 := by
  induction n with
  | zero => rfl
  | succ m ih => simp only [crcBitN, crcBit_zero, ih]

/-- Splitting the state of a byte step: the data byte rides with the first
summand, the second summand shifts through as if over a zero byte. -/
theorem crcByte_split (a b d : Nat) : crcByte (a ^^^ b) d = crcByte a d ^^^ crcBitN 8 b := by
  unfold crcByte
  rw [show a ^^^ b ^^^ d = (a ^^^ d) ^^^ b by
        rw [Nat.xor_assoc, Nat.xor_comm b d, ← Nat.xor_assoc],
      crcBitN_xor]

theorem crcByte_zero_data (b : Nat) : crcByte b 0 = crcBitN 8 b := by
  unfold crcByte
  rw [Nat.xor_zero]

/-- Linearity of the raw CRC register: running a xored-in state through
data equals running the data normally, xor running the extra state through
the same number of zero bytes. -/
theorem crcRaw_xor (data : List Nat) :
    ∀ a b, crcRaw (a ^^^ b) data =
      crcRaw a data ^^^ crcRaw b (List.replicate data.length 0) := by
  induction data with
  | nil => intro a b; rfl
  | cons d rest ih =>
    intro a b
    show crcRaw (crcByte (a ^^^ b) d) rest = _
    rw [crcByte_split, ih, ← crcByte_zero_data]
    rfl

theorem crcRaw_append (s : Nat) (A B : List Nat) :
    crcRaw s (A ++ B) = crcRaw (crcRaw s A) B :=
  List.foldl_append crcByte s A B

/-- Incremental updates compose: the running checksum of `chksumReader`
over consecutive reads equals the checksum of the concatenation. -/
theorem crcUpdate_append (c : Nat) (A B : List Nat) :
    crcUpdate (crcUpdate c A) B = crcUpdate c (A ++ B) := by
  unfold crcUpdate
  rw [natXor_cancel_right, crcRaw_append]

/-- Correctness of CRC32C combine: combining the checksums of two byte
sequences with the length of the second yields the checksum of the
concatenation. -/
theorem crc32_combine_correct (A B : List Nat) :
    crc32Combine (crc32c A) (crc32c B) B.length = crc32c (A ++ B) := by
  have hz : (List.replicate B.length (0 : Nat)).length = B.length :=
    List.length_replicate B.length 0
  have hbase : ∀ s : Nat, s = crcMask ^^^ (s ^^^ crcMask) := by
    intro s; rw [natXor_left_comm, Nat.xor_self, Nat.xor_zero]
  unfold crc32Combine crc32c crcUpdate
  rw [Nat.zero_xor, natXor_cancel_right, crcRaw_append]
  rw [show crcRaw (crcRaw crcMask A) B =
        crcRaw crcMask B ^^^
          crcRaw (crcRaw crcMask A ^^^ crcMask) (List.replicate B.length 0) from by
    conv_lhs => rw [hbase (crcRaw crcMask A)]
    exact crcRaw_xor B crcMask (crcRaw crcMask A ^^^ crcMask)]
  rw [show crcRaw (crcRaw crcMask A) (List.replicate B.length 0) =
        crcRaw crcMask (List.replicate B.length 0) ^^^
          crcRaw (crcRaw crcMask A ^^^ crcMask) (List.replicate B.length 0) from by
    conv_lhs => rw [hbase (crcRaw crcMask A)]
    rw [crcRaw_xor (List.replicate B.length 0) crcMask (crcRaw crcMask A ^^^ crcMask), hz]]
  generalize crcRaw (crcRaw crcMask A ^^^ crcMask) (List.replicate B.length 0) = v
  generalize crcRaw crcMask (List.replicate B.length 0) = u
  generalize crcRaw crcMask B = w
  simp [Nat.xor_assoc, Nat.xor_comm, natXor_left_comm, natXor_cancel_left,
    Nat.xor_self, Nat.xor_zero, Nat.zero_xor]

/-- The concatenation of the consecutive parts is the whole object. -/
theorem chunkList_join (sz : Nat) : ∀ l : List Nat, (chunkList sz l).flatten = l
  | [] => by simp [chunkList]
  | x :: xs => by
    have ih := chunkList_join sz (xs.drop (sz - 1))
    simp only [chunkList, List.flatten_cons, ih, List.cons_append, List.take_append_drop]
termination_by l => l.length
decreasing_by
  simp only [List.length_cons, List.length_drop]
  omega

/-- Folding the combine step from the checksum of an accumulated first
segment extends the segment. -/
theorem partsCombine_fold (ps : List (List Nat)) :
    ∀ A : List Nat,
      ps.foldl (fun acc q => crc32Combine acc (crc32c q) q.length) (crc32c A)
        = crc32c (A ++ ps.flatten) := by
  induction ps with
  | nil => intro A; simp
  | cons q ps ih =>
    intro A
    simp only [List.foldl_cons, crc32_combine_correct, ih, List.flatten_cons,
      List.append_assoc]

/-- The per-part combine fold of `doCopyMultiple` computes the CRC32C of
the concatenation of the parts. -/
theorem partsCombine_eq (ps : List (List Nat)) (h : ps ≠ []) :
    partsCombine ps = crc32c ps.flatten := by
  cases ps with
  | nil => exact absurd rfl h
  | cons p ps =>
    show ps.foldl (fun acc q => crc32Combine acc (crc32c q) q.length) (crc32c p)
      = crc32c (p :: ps).flatten
    rw [partsCombine_fold ps p, List.flatten_cons]

/-- The running checksum of `chksumReader` over successive reads is the
checksum of the concatenated bytes. -/
theorem chksumReader_fold (cs : List (List Nat)) :
    ∀ c : Nat, cs.foldl crcUpdate c = crcUpdate c cs.flatten := by
  induction cs with
  | nil =>
    intro c
    show c = crcUpdate c []
    unfold crcUpdate crcRaw
    rw [List.foldl_nil, natXor_cancel_right]
  | cons h t ih =>
    intro c
    simp only [List.foldl_cons, ih, List.flatten_cons, crcUpdate_append]

/-- C2: every checksum CopyData reports equals the CRC32C of the
concatenated source bytes.  The single-PUT path accumulates a running CRC
over the reads seen by `chksumReader`; `CRC32Combine` of two checksums
with the second length is the checksum of the concatenation; and the
multipart path, which splits the object into consecutive parts and folds
the per-part CRCs with combine in part-index order using each part's exact
length, computes the CRC32C of the whole object. -/
theorem copyData_checksum_correct (reads : List (List Nat)) (partSize : Nat)
    (data : List Nat) (_hsz : 1 ≤ partSize) :
    (reads.foldl crcUpdate 0 = crc32c reads.flatten) ∧
    (∀ A B : List Nat, crc32Combine (crc32c A) (crc32c B) B.length = crc32c (A ++ B)) ∧
    (data ≠ [] → partsCombine (chunkList partSize data) = crc32c data) := by
  refine ⟨chksumReader_fold reads 0, crc32_combine_correct, ?_⟩
  intro hne
  have hch : chunkList partSize data ≠ [] := by
    cases data with
    | nil => exact absurd rfl hne
    | cons x xs => simp [chunkList]
  rw [partsCombine_eq (chunkList partSize data) hch, chunkList_join]

/-- Witness for `copyData_checksum_correct`: a three-byte object split
into parts of two bytes. -/
theorem copyData_checksum_correct_witness :
    partsCombine (chunkList 2 ([1, 2, 3] : List Nat)) = crc32c ([1, 2, 3] : List Nat) :=
  (copyData_checksum_correct [[1], [2, 3]] 2 ([1, 2, 3] : List Nat)
    (by decide)).2.2 (by decide)

/-- The error values distinguished by `shouldRetry` (sync.go lines
224-239): the two sentinel errors, an OS errno (Linux numeric code), the
not-supported error, or any other error. -/
inductive GoErr where
  | skipped
  | extlink
  | errno (n : Nat)
  | notSup
  | other (tag : Nat)
deriving DecidableEq, Repr

/-- Linux errno codes named in `shouldRetry`. -/
def eAGAIN : Nat := 11
def eINTR : Nat := 4
def eBUSY : Nat := 16
def eTIMEDOUT : Nat := 110
def eIO : Nat := 5

/-- Transcription of `shouldRetry`: nil, skipped and external-link errors
are final; an OS errno retries only for EAGAIN, EINTR, EBUSY, ETIMEDOUT
and EIO; everything else retries. -/
def shouldRetry : Option GoErr → Bool
  | none => false
  | some GoErr.skipped => false
  | some GoErr.extlink => false
  | some (GoErr.errno n) =>
    decide (n = eAGAIN ∨ n = eINTR ∨ n = eBUSY ∨ n = eTIMEDOUT ∨ n = eIO)
  | some GoErr.notSup => true
  | some (GoErr.other _) => true

/-- Transcription of `try(n, f)` (sync.go lines 241-251), with the calls
to `f` modelled as a sequence of results indexed by attempt number.
Returns the final error, the number of calls made, and the list of sleep
durations (in seconds) performed between attempts in order.  The loop
sleeps `i*i` seconds after the retryable failure of the attempt with loop
index `i`. -/
def tryLoop (f : Nat → Option GoErr) : Nat → Nat → Option GoErr × Nat × List Nat
  | _, 0 => (none, 0, [])
  | i, rem + 1 =>
    let e := f i
    if shouldRetry e then
      if rem = 0 then (e, 1, [i * i])
      else
        let t := tryLoop f (i + 1) rem
        (t.1, t.2.1 + 1, i * i :: t.2.2)
    else (e, 1, [])

/-- `try(n, f)`: run up to `n` attempts starting at loop index 0. -/
def tryRun (n : Nat) (f : Nat → Option GoErr) : Option GoErr × Nat × List Nat :=
  tryLoop f 0 n

/-- Control skeleton of `CopyData` (sync.go lines 805-838): sizes below
maxBlock use `try(3, doCopySingle)`; otherwise one `CreateMultipartUpload`
is attempted; ENOTSUP falls back to `try(3, doCopySingle)`; any other
creation error is retried by `try(2, CreateMultipartUpload)` before
`doCopyMultiple` runs.  The record counts how often each operation ran. -/
structure CopyDataCalls where
  singleCalls : Nat
  createCalls : Nat
  multiRuns : Nat
deriving DecidableEq, Repr

/-- maxBlock = defaultPartSize * 2 = 10 MiB. -/
def maxBlockConst : Int := 2 * (5 * 1048576)

/-- The operation counts of one `CopyData` run, with the outcomes of the
successive `doCopySingle` and `CreateMultipartUpload` calls given as
oracles. -/
def copyDataCalls (size : Int) (singleErr createErr : Nat → Option GoErr) : CopyDataCalls :=
  if size < maxBlockConst then
    { singleCalls := (tryRun 3 singleErr).2.1, createCalls := 0, multiRuns := 0 }
  else
    match createErr 0 with
    | none => { singleCalls := 0, createCalls := 1, multiRuns := 1 }
    | some GoErr.notSup =>
      { singleCalls := (tryRun 3 singleErr).2.1, createCalls := 1, multiRuns := 0 }
    | some _ =>
      let r := tryRun 2 (fun i => createErr (i + 1))
      { singleCalls := 0, createCalls := 1 + r.2.1,
        multiRuns := if r.1 = none then 1 else 0 }

/-- Behaviour of the attempt loop from an arbitrary starting index. -/
theorem tryLoop_spec (f : Nat → Option GoErr) :
    ∀ (rem i : Nat),
      (tryLoop f i rem).2.1 ≤ rem ∧
      (∀ j, j + 1 < (tryLoop f i rem).2.1 → shouldRetry (f (i + j)) = true) ∧
      (1 ≤ (tryLoop f i rem).2.1 →
        (tryLoop f i rem).1 = f (i + (tryLoop f i rem).2.1 - 1)) ∧
      ((tryLoop f i rem).2.1 < rem → shouldRetry (tryLoop f i rem).1 = false) ∧
      (1 ≤ rem → 1 ≤ (tryLoop f i rem).2.1) ∧
      ((tryLoop f i rem).2.2 =
        (List.range (tryLoop f i rem).2.2.length).map (fun j => (i + j) * (i + j))) ∧
      (tryLoop f i rem).2.1 - 1 ≤ (tryLoop f i rem).2.2.length ∧
      (tryLoop f i rem).2.2.length ≤ (tryLoop f i rem).2.1 := by
  intro rem
  induction rem with
  | zero =>
    intro i
    simp [tryLoop, shouldRetry]
  | succ rem ih =>
    intro i
    by_cases hr : shouldRetry (f i) = true
    · rcases Nat.eq_zero_or_pos rem with hrem | hrem
      · subst hrem
        have hred : tryLoop f i 1 = (f i, 1, [i * i]) := by
          simp [tryLoop, hr]
        rw [hred]
        dsimp only
        refine ⟨by omega, ?_, ?_, ?_, fun _ => le_refl 1, ?_, by simp, by simp⟩
        · intro j hj; omega
        · intro _; simp
        · intro h2; exact absurd h2 (by omega)
        · rw [show ([i * i] : List Nat).length = 1 from rfl,
             show List.range (1 : Nat) = [0] from by simp [List.range_succ]]
          simp
      · have hrem0 : rem ≠ 0 := Nat.pos_iff_ne_zero.mp hrem
        obtain ⟨h1, h2, h3, h4, h5, h6, h7, h8⟩ := ih (i + 1)
        have hred : tryLoop f i (rem + 1) =
            ((tryLoop f (i + 1) rem).1, (tryLoop f (i + 1) rem).2.1 + 1,
             i * i :: (tryLoop f (i + 1) rem).2.2) := by
          simp [tryLoop, hr, hrem0]
        rw [hred]
        dsimp only
        refine ⟨by omega, ?_, ?_, ?_, fun _ => by omega, ?_,
          by simp only [List.length_cons]; omega, by simp only [List.length_cons]; omega⟩
        · intro j hj
          cases j with
          | zero => simpa using hr
          | succ j2 =>
            have hj2 := h2 j2 (by omega)
            have hidx : i + 1 + j2 = i + (j2 + 1) := by omega
            rw [hidx] at hj2
            exact hj2
        · intro _
          have hc : 1 ≤ (tryLoop f (i + 1) rem).2.1 := h5 (by omega)
          have h3c := h3 hc
          simp only [h3c]
          congr 1
          omega
        · intro hlt
          exact h4 (by omega)
        · simp only [List.length_cons, List.range_succ_eq_map, List.map_cons,
            List.map_map, Nat.add_zero]
          refine congrArg (List.cons (i * i)) ?_
          conv_lhs => rw [h6]
          apply List.map_congr_left
          intro a _
          have hia : i + 1 + a = i + (a + 1) := by omega
          simp [Function.comp, Nat.succ_eq_add_one, hia]
    · have hr2 : shouldRetry (f i) = false := by
        cases h : shouldRetry (f i)
        · rfl
        · exact absurd h hr
      have hred : tryLoop f i (rem + 1) = (f i, 1, []) := by
        simp [tryLoop, hr2]
      rw [hred]
      dsimp only
      refine ⟨by omega, ?_, ?_, fun _ => hr2, fun _ => le_refl 1, by simp, by simp, by simp⟩
      · intro j hj; omega
      · intro _; simp

/-- C3: the retry loop `try(n, f)` calls `f` at most `n` times, every call
before the last returned a retryable error, the returned error is the last
call's result, an early stop means the last result was not retryable, the
j-th inter-attempt sleep lasts j*j seconds (so i*i seconds before attempt
i+1), an error is retryable iff it is non-nil, not skipped or
external-link, and, when an OS errno, one of EAGAIN, EINTR, EBUSY,
ETIMEDOUT, EIO; and CopyData bounds its single-copy retries by 3 and its
multipart-init retries by 2 (after the initial create attempt). -/
theorem try_retry_semantics (n : Nat) (f : Nat → Option GoErr) (size : Int)
    (se ce : Nat → Option GoErr) :
    ((tryRun n f).2.1 ≤ n) ∧
    (∀ j, j + 1 < (tryRun n f).2.1 → shouldRetry (f j) = true) ∧
    (1 ≤ (tryRun n f).2.1 → (tryRun n f).1 = f ((tryRun n f).2.1 - 1)) ∧
    ((tryRun n f).2.1 < n → shouldRetry (tryRun n f).1 = false) ∧
    (1 ≤ n → 1 ≤ (tryRun n f).2.1) ∧
    ((tryRun n f).2.2 = (List.range (tryRun n f).2.2.length).map (fun j => j * j)) ∧
    ((tryRun n f).2.1 - 1 ≤ (tryRun n f).2.2.length ∧
      (tryRun n f).2.2.length ≤ (tryRun n f).2.1) ∧
    (∀ e : Option GoErr, shouldRetry e = true ↔
      e ≠ none ∧ e ≠ some GoErr.skipped ∧ e ≠ some GoErr.extlink ∧
      (∀ m, e = some (GoErr.errno m) →
        m = eAGAIN ∨ m = eINTR ∨ m = eBUSY ∨ m = eTIMEDOUT ∨ m = eIO)) ∧
    ((copyDataCalls size se ce).singleCalls ≤ 3 ∧
      (copyDataCalls size se ce).createCalls ≤ 1 + 2) := by
  obtain ⟨h1, h2, h3, h4, h5, h6, h7, h8⟩ := tryLoop_spec f n 0
  refine ⟨h1, ?_, ?_, h4, h5, ?_, ⟨h7, h8⟩, ?_, ?_⟩
  · intro j hj
    have := h2 j hj
    simpa using this
  · intro hc
    have := h3 hc
    simpa using this
  · have := h6
    simpa using this
  · intro e
    cases e with
    | none => simp [shouldRetry]
    | some g =>
      cases g with
      | skipped => simp [shouldRetry]
      | extlink => simp [shouldRetry]
      | notSup => simp [shouldRetry]
      | other t => simp [shouldRetry]
      | errno m =>
        simp only [shouldRetry, decide_eq_true_eq, ne_eq, reduceCtorEq,
          not_false_iff, true_and, Option.some.injEq]
        constructor
        · intro h m2 hm2
          cases hm2
          exact h
        · intro h
          exact h m rfl
  · constructor
    · unfold copyDataCalls
      split_ifs
      · exact (tryLoop_spec se 3 0).1
      · cases hce : ce 0 with
        | none => simp
        | some g =>
          cases g <;> simp <;> exact (tryLoop_spec se 3 0).1
    · unfold copyDataCalls
      split_ifs
      · simp
      · cases hce : ce 0 with
        | none => simp
        | some g =>
          cases g <;> simp <;>
            exact Nat.add_le_add_left ((tryLoop_spec (fun i => ce (i + 1)) 2 0).1) 1

/-- Witness for `try_retry_semantics`: an EAGAIN on the first attempt is
retried and the second attempt's nil result is returned. -/
theorem try_retry_semantics_witness :
    let f : Nat → Option GoErr := fun i => if i = 0 then some (GoErr.errno eAGAIN) else none
    (tryRun 3 f).1 = f ((tryRun 3 f).2.1 - 1) := by
  intro f
  exact (try_retry_semantics 3 f 0 (fun _ => none) (fun _ => none)).2.2.1 (by decide)

/-- Why the per-page scan of `ListAll` stopped: an out-of-order key (nil
sentinel emitted, stream aborted), a key past the end bound (silent stop),
or the page fully processed.  Keys are modelled as naturals under their
linear order, standing in for lexicographic byte-string order; 0 plays the
role of the empty string (the initial marker). -/
inductive ScanStop where
  | outOfOrder
  | pastEnd
  | done
deriving DecidableEq, Repr

/-- The end-bound cut `end != "" && key > end` of ListAll, with `none`
for an empty end bound. -/
def endCut (endK : Option Nat) (k : Nat) : Bool :=
  match endK with
  | none => false
  | some e => decide (e < k)

/-- Transcription of the per-page emission loop of `ListAll` (sync.go
lines 166-180): emit keys while they are strictly above the last emitted
key (unchecked for the very first emission) and inside the end bound; a
key at or below the last emitted one emits the nil sentinel and aborts.
Returns the emissions, the updated lastkey and first flag, and the stop
reason. -/
def processPage (endK : Option Nat) : Nat → Bool → List Nat →
    List (Option Nat) × Nat × Bool × ScanStop
  | lastkey, first, [] => ([], lastkey, first, ScanStop.done)
  | lastkey, first, k :: rest =>
    if ¬(first = true) ∧ k ≤ lastkey then ([none], lastkey, first, ScanStop.outOfOrder)
    else if endCut endK k then ([], lastkey, first, ScanStop.pastEnd)
    else
      let t := processPage endK k false rest
      (some k :: t.1, t.2)

/-- Transcription of the page-fetch loop of `ListAll` (lines 161-213):
pages are processed in order; when more pages remain, a continuation page
whose first key equals the marker (the last emitted key) has that entry
elided; a failed fetch after the given pages emits the nil sentinel. -/
def pagedStream (endK : Option Nat) : List (List Nat) → Nat → Bool → List Nat →
    Bool → List (Option Nat)
  | [], lastkey, first, cur, failTail =>
    let t := processPage endK lastkey first cur
    match t.2.2.2 with
    | ScanStop.outOfOrder => t.1
    | ScanStop.pastEnd => t.1
    | ScanStop.done => t.1 ++ (if failTail then [none] else [])
  | p :: ps, lastkey, first, cur, failTail =>
    let t := processPage endK lastkey first cur
    match t.2.2.2 with
    | ScanStop.outOfOrder => t.1
    | ScanStop.pastEnd => t.1
    | ScanStop.done =>
      let p2 := if p.head? = some t.2.1 then p.tail else p
      t.1 ++ pagedStream endK ps t.2.1 t.2.2.1 p2 failTail

/-- The full `ListAll` stream (lines 119-215): an optional separate HEAD
emission of the start key, emitted whenever start is nonempty (nonzero in
the key model), start carries the listing prefix (abstracted as a flag)
and the HEAD succeeds, followed by the paged stream from marker start. -/
def listAllStream (start : Nat) (hasPre headOk : Bool) (endK : Option Nat)
    (firstPage : List Nat) (rest : List (List Nat)) (failTail : Bool) :
    List (Option Nat) :=
  (if start ≠ 0 ∧ hasPre ∧ headOk then [some start] else []) ++
    pagedStream endK rest 0 true firstPage failTail

/-- Well-formed emission stream above a lower bound: every emitted key
strictly exceeds the bound and its predecessors, and a nil sentinel can
only be the final element. -/
def goodStream : Option Nat → List (Option Nat) → Prop
  | _, [] => True
  | _, none :: rest => rest = []
  | lb, some k :: rest =>
    (match lb with
     | none => True
     | some b => b < k) ∧ goodStream (some k) rest

/-- The lower bound carried after the given emissions. -/
def lastBound (lb : Option Nat) (xs : List (Option Nat)) : Option Nat :=
  xs.foldl (fun b x => match x with | some k => some k | none => b) lb

/-- Boolean strict ascension of a key list. -/
def strictAscBool : List Nat → Bool
  | [] => true
  | [_] => true
  | a :: b :: rest => decide (a < b) && strictAscBool (b :: rest)

theorem goodStream_append : ∀ (xs : List (Option Nat)) (lb : Option Nat)
    (ys : List (Option Nat)), goodStream lb xs → Option.none ∉ xs →
    goodStream (lastBound lb xs) ys → goodStream lb (xs ++ ys) := by
  intro xs
  induction xs with
  | nil => intro lb ys _ _ h3; exact h3
  | cons x rest ih =>
    intro lb ys h1 h2 h3
    cases x with
    | none => exact absurd (List.mem_cons_self _ _) h2
    | some k =>
      refine ⟨h1.1, ?_⟩
      exact ih (some k) ys h1.2 (fun hmem => h2 (List.mem_cons_of_mem _ hmem)) h3

theorem getLast?_cons_of_some {α : Type} : ∀ (l : List α) (x : α) (y : α),
    l.getLast? = some y → (x :: l).getLast? = some y := by
  intro l x y h
  cases l with
  | nil => simp at h
  | cons b m => rw [List.getLast?_cons_cons]; exact h

/-- Invariants of the per-page scan: emissions are well formed above the
incoming bound, the nil sentinel appears only for an out-of-order stop
(and then as the final element), the carried bound after the page is the
updated lastkey, and the first flag only stays set on an empty scan. -/
theorem processPage_inv (endK : Option Nat) : ∀ (cur : List Nat) (lastkey : Nat)
    (first : Bool),
    goodStream (if first = true then none else some lastkey)
      (processPage endK lastkey first cur).1 ∧
    ((processPage endK lastkey first cur).2.2.2 ≠ ScanStop.outOfOrder →
       Option.none ∉ (processPage endK lastkey first cur).1) ∧
    (lastBound (if first = true then none else some lastkey)
        (processPage endK lastkey first cur).1
       = (if (processPage endK lastkey first cur).2.2.1 = true then none
          else some (processPage endK lastkey first cur).2.1)) ∧
    ((processPage endK lastkey first cur).2.2.1 = true → first = true ∧
       (processPage endK lastkey first cur).1 = [] ∧
       (processPage endK lastkey first cur).2.1 = lastkey) ∧
    ((processPage endK lastkey first cur).2.2.2 = ScanStop.outOfOrder →
       (processPage endK lastkey first cur).1.getLast? = some none) := by
  intro cur
  induction cur with
  | nil =>
    intro lastkey first
    refine ⟨trivial, by simp [processPage], ?_, by simp [processPage], by simp [processPage]⟩
    cases first <;> simp [processPage, lastBound]
  | cons k rest ih =>
    intro lastkey first
    by_cases h1 : ¬(first = true) ∧ k ≤ lastkey
    · have hred : processPage endK lastkey first (k :: rest)
          = ([none], lastkey, first, ScanStop.outOfOrder) := by
        simp only [processPage, if_pos h1]
      rw [hred]
      have hf : first = false := by
        cases first
        · rfl
        · exact absurd rfl h1.1
      subst hf
      refine ⟨rfl, fun hc => absurd rfl hc, ?_, by simp, fun _ => rfl⟩
      simp [lastBound]
    · by_cases h2 : endCut endK k = true
      · have hred : processPage endK lastkey first (k :: rest)
            = ([], lastkey, first, ScanStop.pastEnd) := by
          simp only [processPage, if_neg h1, if_pos h2]
        rw [hred]
        refine ⟨trivial, by simp, ?_, by simp, by simp⟩
        cases first <;> simp [lastBound]
      · have hred : processPage endK lastkey first (k :: rest)
            = (some k :: (processPage endK k false rest).1,
               (processPage endK k false rest).2) := by
          simp only [processPage, if_neg h1, if_neg h2]
        rw [hred]
        obtain ⟨a, b, c, d, e⟩ := ih k false
        have hff : (processPage endK k false rest).2.2.1 = false := by
          cases hv : (processPage endK k false rest).2.2.1
          · rfl
          · exact absurd (d hv).1 (by simp)
        refine ⟨?_, ?_, ?_, ?_, ?_⟩
        · refine ⟨?_, ?_⟩
          · by_cases hf : first = true
            · rw [if_pos hf]
              trivial
            · rw [if_neg hf]
              rcases not_and_or.mp h1 with hna | hna
              · exact absurd (not_not.mp hna) hf
              · exact lt_of_not_le hna
          · simpa using a
        · intro hno hmem
          rcases List.mem_cons.mp hmem with hx | hx
          · exact Option.noConfusion hx
          · exact b hno hx
        · have : lastBound (if first = true then none else some lastkey)
              (some k :: (processPage endK k false rest).1)
              = lastBound (some k) (processPage endK k false rest).1 := by
            cases first <;> rfl
          rw [this]
          have c2 := c
          simp only [hff] at c2 ⊢
          simpa using c2
        · intro hv
          exact absurd (hff ▸ hv) (by simp)
        · intro ho
          exact getLast?_cons_of_some _ _ _ (e ho)

/-- The whole paged stream is well formed above its incoming bound. -/
theorem pagedStream_good (endK : Option Nat) : ∀ (rest : List (List Nat))
    (cur : List Nat) (lastkey : Nat) (first : Bool) (failTail : Bool),
    goodStream (if first = true then none else some lastkey)
      (pagedStream endK rest lastkey first cur failTail) := by
  intro rest
  induction rest with
  | nil =>
    intro cur lastkey first failTail
    obtain ⟨a, b, c, d, e⟩ := processPage_inv endK cur lastkey first
    simp only [pagedStream]
    cases hs : (processPage endK lastkey first cur).2.2.2 with
    | outOfOrder => exact a
    | pastEnd => exact a
    | done =>
      refine goodStream_append _ _ _ a (b (by simp [hs])) ?_
      cases failTail
      · exact trivial
      · exact rfl
  | cons p ps ih =>
    intro cur lastkey first failTail
    obtain ⟨a, b, c, d, e⟩ := processPage_inv endK cur lastkey first
    simp only [pagedStream]
    cases hs : (processPage endK lastkey first cur).2.2.2 with
    | outOfOrder => exact a
    | pastEnd => exact a
    | done =>
      refine goodStream_append _ _ _ a (b (by simp [hs])) ?_
      rw [c]
      exact ih _ _ _ failTail

/-- A well-formed stream has strictly ascending keys, a bound below its
first key, and the nil sentinel at most as its final element. -/
theorem goodStream_chain : ∀ (l : List (Option Nat)) (lb : Option Nat),
    goodStream lb l →
    (l.filterMap id).Chain' (· < ·) ∧
    (∀ b k2, lb = some b → (l.filterMap id).head? = some k2 → b < k2) ∧
    (∀ x ∈ l.dropLast, x ≠ none) := by
  intro l
  induction l with
  | nil =>
    intro lb _
    refine ⟨List.chain'_nil, ?_, ?_⟩ <;> intros <;> simp_all
  | cons x rest ih =>
    intro lb h
    cases x with
    | none =>
      have hr : rest = [] := h
      subst hr
      refine ⟨by simp, ?_, ?_⟩
      · intro b k2 _ hk; simp at hk
      · intro x hx; simp [List.dropLast] at hx
    | some k =>
      obtain ⟨hb, hg⟩ := h
      obtain ⟨c1, c2, c3⟩ := ih (some k) hg
      have hfm : (some k :: rest).filterMap id = k :: rest.filterMap id := by simp
      refine ⟨?_, ?_, ?_⟩
      · rw [hfm, List.chain'_cons']
        refine ⟨?_, c1⟩
        intro b2 hb2
        exact c2 k b2 rfl hb2
      · intro b k2 hlb hk
        rw [hfm] at hk
        simp only [List.head?_cons, Option.some.injEq] at hk
        subst hk
        cases hlb
        exact hb
      · intro x hx
        cases rest with
        | nil => simp [List.dropLast] at hx
        | cons y m =>
          rw [List.dropLast_cons₂] at hx
          rcases List.mem_cons.mp hx with hx2 | hx2
          · subst hx2; simp
          · exact c3 x hx2

/-- C4 counterexample: for a store whose paged List includes the marker
key itself in the first page (the non-conformant stores the continuation
elision works around), the start key found by the separate HEAD is emitted
and then emitted again by the page scan: the stream is not strictly
ascending and no nil sentinel is emitted, contrary to the claim. -/
theorem listAll_head_duplicate :
    listAllStream 1 true true none [1, 2] [] false
      = [some 1, some 1, some 2] ∧
    strictAscBool ((listAllStream 1 true true none [1, 2] [] false).filterMap id)
      = false ∧
    (none : Option Nat) ∉ listAllStream 1 true true none [1, 2] [] false := by
  refine ⟨by decide, by decide, by decide⟩

/-- C4 (amended): within the paged listing loop the emitted descriptors
are strictly ascending and a nil sentinel can only be the final element of
the stream; a page whose scan hits a key at or below the last emitted key
emits the nil sentinel and terminates the stream at that page.  The
separately HEAD-emitted start key is outside this guarantee: it precedes
the paged stream unchecked. -/
theorem listAll_paged_stream_ordered (endK : Option Nat) (lastkey lk0 : Nat)
    (p0 cur : List Nat) (rest : List (List Nat)) (failTail : Bool) :
    ((pagedStream endK rest lk0 true p0 failTail).filterMap id).Chain' (· < ·) ∧
    (∀ x ∈ (pagedStream endK rest lk0 true p0 failTail).dropLast, x ≠ none) ∧
    ((processPage endK lastkey false cur).2.2.2 = ScanStop.outOfOrder →
      pagedStream endK rest lastkey false cur failTail
        = (processPage endK lastkey false cur).1 ∧
      (processPage endK lastkey false cur).1.getLast? = some none) := by
  have hg := pagedStream_good endK rest p0 lk0 true failTail
  obtain ⟨c1, _, c3⟩ := goodStream_chain _ _ hg
  refine ⟨c1, c3, ?_⟩
  intro ho
  obtain ⟨a, b, c, d, e⟩ := processPage_inv endK cur lastkey false
  refine ⟨?_, e ho⟩
  cases rest with
  | nil => simp only [pagedStream, ho]
  | cons p ps => simp only [pagedStream, ho]

/-- Witness for `listAll_paged_stream_ordered`: a continuation page
repeating the previous key yields the sentinel and ends the stream. -/
theorem listAll_paged_stream_ordered_witness :
    pagedStream none [] 5 false [5] false
      = (processPage none 5 false [5]).1 ∧
    (processPage none 5 false [5]).1.getLast? = some none :=
  (listAll_paged_stream_ordered none 5 0 [] [5] [] false).2.2 (by decide)

/-- Transcription of `choosePartSize` (sync.go lines 659-669): start from
the store's MinPartSize (5 MiB when zero); when the object does not fit in
MaxCount such parts, floor-divide the size by MaxCount and round the
quotient up to a MiB boundary, exactly as the Go shifts do. -/
def choosePartSize (minPartSize maxCount size : Nat) : Nat :=
  let p := if minPartSize = 0 then 5 * 1048576 else minPartSize
  if p * maxCount < size then ((size / maxCount - 1) >>> 20 + 1) <<< 20 else p

/-- The part size the claim describes: `max(MinPartSize, ceil(size/MaxCount)
rounded up to MiB)`. -/
def specPartSize (minPartSize maxCount size : Nat) : Nat :=
  let m := if minPartSize = 0 then 5 * 1048576 else minPartSize
  max m ((((size + maxCount - 1) / maxCount - 1) / 1048576 + 1) * 1048576)

theorem ceilMiB_eq (x : Nat) :
    ((x - 1) >>> 20 + 1) <<< 20 = ((x - 1) / 1048576 + 1) * 1048576 := by
  rw [Nat.shiftRight_eq_div_pow, Nat.shiftLeft_eq]

/-- C6 counterexample: for MinPartSize 5 MiB, MaxCount 2 and size
12 MiB + 1, the code floor-divides before rounding and returns 6 MiB,
not the claimed max(5 MiB, ceilMiB(ceil(size/2))) = 7 MiB; two 6 MiB
parts cannot hold the object, so it does not fit in MaxCount parts. -/
theorem choosePartSize_not_as_claimed :
    choosePartSize 5242880 2 12582913 = 6291456 ∧
    specPartSize 5242880 2 12582913 = 7340032 ∧
    choosePartSize 5242880 2 12582913 * 2 < 12582913 := by
  refine ⟨by decide, by decide, by decide⟩

/-- C6 (amended): with MaxCount ≥ 1 and size ≥ 1, the chosen part size is
MinPartSize (5 MiB when zero) when the object fits in MaxCount such
parts; otherwise it is floor(size/MaxCount) rounded up to a MiB boundary,
which is at least MinPartSize.  The object fits in at most MaxCount parts
whenever the floored quotient is not an exact MiB multiple or MaxCount
divides the size; in the remaining corner case the chosen size times
MaxCount falls short of the size, so one extra part is needed. -/
theorem choosePartSize_spec (minPartSize maxCount size : Nat)
    (hC : 1 ≤ maxCount) (_hs : 1 ≤ size) :
    (size ≤ (if minPartSize = 0 then 5 * 1048576 else minPartSize) * maxCount →
      choosePartSize minPartSize maxCount size
        = (if minPartSize = 0 then 5 * 1048576 else minPartSize)) ∧
    ((if minPartSize = 0 then 5 * 1048576 else minPartSize) * maxCount < size →
      choosePartSize minPartSize maxCount size
        = ((size / maxCount - 1) / 1048576 + 1) * 1048576 ∧
      (if minPartSize = 0 then 5 * 1048576 else minPartSize)
        ≤ choosePartSize minPartSize maxCount size) ∧
    ((size / maxCount) % 1048576 ≠ 0 ∨ size % maxCount = 0 →
      size ≤ choosePartSize minPartSize maxCount size * maxCount) ∧
    ((if minPartSize = 0 then 5 * 1048576 else minPartSize) * maxCount < size →
      (size / maxCount) % 1048576 = 0 → size % maxCount ≠ 0 →
      choosePartSize minPartSize maxCount size * maxCount < size) := by
  have hm : 1 ≤ (if minPartSize = 0 then 5 * 1048576 else minPartSize) := by
    split_ifs with h0
    · norm_num
    · omega
  have hdm := Nat.div_add_mod size maxCount
  have hmod : size % maxCount < maxCount := Nat.mod_lt _ (by omega)
  have hxm : (if minPartSize = 0 then 5 * 1048576 else minPartSize) * maxCount < size →
      (if minPartSize = 0 then 5 * 1048576 else minPartSize) ≤ size / maxCount := by
    intro hgt
    rw [Nat.le_div_iff_mul_le (by omega : 0 < maxCount)]
    omega
  have hcp : choosePartSize minPartSize maxCount size
      = (if (if minPartSize = 0 then 5 * 1048576 else minPartSize) * maxCount < size
         then ((size / maxCount - 1) / 1048576 + 1) * 1048576
         else (if minPartSize = 0 then 5 * 1048576 else minPartSize)) := by
    simp only [choosePartSize]
    rw [ceilMiB_eq]
  refine ⟨?_, ?_, ?_, ?_⟩
  · intro hle
    rw [hcp, if_neg (by omega)]
  · intro hgt
    rw [hcp, if_pos hgt]
    refine ⟨rfl, ?_⟩
    have hx := hxm hgt
    generalize size / maxCount = x at hx
    omega
  · intro hcond
    rw [hcp]
    by_cases hgt : (if minPartSize = 0 then 5 * 1048576 else minPartSize) * maxCount < size
    · rw [if_pos hgt]
      have hx := hxm hgt
      set Q := size / maxCount with hQ
      rcases hcond with hcond | hcond
      · have hge : Q + 1 ≤ ((Q - 1) / 1048576 + 1) * 1048576 := by omega
        have hmul : (Q + 1) * maxCount ≤ (((Q - 1) / 1048576 + 1) * 1048576) * maxCount :=
          Nat.mul_le_mul_right _ hge
        have hsz : size ≤ (Q + 1) * maxCount := by
          have hcm : (Q + 1) * maxCount = maxCount * Q + maxCount := by ring
          omega
        omega
      · have hge : Q ≤ ((Q - 1) / 1048576 + 1) * 1048576 := by omega
        have hmul : Q * maxCount ≤ (((Q - 1) / 1048576 + 1) * 1048576) * maxCount :=
          Nat.mul_le_mul_right _ hge
        have hsz : size = Q * maxCount := by
          have hcm : Q * maxCount = maxCount * Q := by ring
          omega
        omega
    · rw [if_neg hgt]
      omega
  · intro hgt hal hnd
    rw [hcp, if_pos hgt]
    have hx := hxm hgt
    set Q := size / maxCount with hQ
    have hceil : ((Q - 1) / 1048576 + 1) * 1048576 = Q := by omega
    rw [hceil]
    have hcm : Q * maxCount = maxCount * Q := by ring
    omega

/-- Witness for `choosePartSize_spec`: a 1-byte object with default
(5 MiB) MinPartSize and a single allowed part keeps the 5 MiB part
size. -/
theorem choosePartSize_spec_witness :
    choosePartSize 0 1 1 = (if (0 : Nat) = 0 then 5 * 1048576 else 0) :=
  (choosePartSize_spec 0 1 1 (by decide) (by decide)).1 (by decide)

/-- The abstract storage operations performed by the multipart-copy range
path (`doCopyRange`, `doUploadPart`), on the happy path. -/
inductive CopyOp where
  | getRange (k : String) (off len : Nat)
  | uploadPart (destKey upId : String) (num : Nat) (len : Nat)
  | createUpload (k : String)
  | completeUpload (k upId : String)
  | uploadPartCopy (destKey parentId : String) (num : Nat) (srcKey : String) (off len : Nat)
  | deleteKey (k : String)
deriving DecidableEq, Repr

/-- Operations of `doUploadPart` (sync.go lines 625-657): a ranged GET of
the source followed by `UploadPart` with 1-based part number. -/
def doUploadPartOps (srcKey : String) (off size : Nat) (key upId : String)
    (num : Nat) : List CopyOp :=
  [CopyOp.getRange srcKey off size, CopyOp.uploadPart key upId (num + 1) size]

/-- The sizes of the `n` consecutive parts of a range of the given size:
`partSize` for each part but the last, which takes the remainder, as in
the loops of `doCopyRange`/`doCopyMultiple`. -/
def partSizes (size pSz n : Nat) : List Nat :=
  (List.range n).map (fun i => if i = n - 1 then size - (n - 1) * pSz else pSz)

/-- Operation trace of `doCopyRange` (sync.go lines 671-743), happy path:
parts of at most 32 MiB, or a destination without upload-part-copy, do a
buffered GET and `UploadPart` against the parent upload; larger parts
stage an intermediate multipart upload at `key.partN`, fill it with ranged
copies, complete it, issue one `UploadPartCopy` against the parent upload
and delete the staging key. -/
def doCopyRangeOps (key : String) (off size : Nat) (upId : String) (num : Nat)
    (support : Bool) (tmpUpId : String) (minPartSize maxCount : Nat) : List CopyOp :=
  if size ≤ 32 * 1048576 ∨ support = false then
    doUploadPartOps key off size key upId num
  else
    let tmpkey := key ++ ".part" ++ toString num
    let pSz := choosePartSize minPartSize maxCount size
    let n := (size - 1) / pSz + 1
    CopyOp.createUpload tmpkey ::
      (((List.range n).map (fun i =>
          doUploadPartOps key (off + i * pSz)
            (if i = n - 1 then size - (n - 1) * pSz else pSz) tmpkey tmpUpId i)).flatten
        ++ [CopyOp.completeUpload tmpkey tmpUpId,
            CopyOp.uploadPartCopy key upId (num + 1) tmpkey 0 size,
            CopyOp.deleteKey tmpkey])

/-- The staged parts tile the whole range: their sizes sum to `size`. -/
theorem partSizes_sum (size pSz : Nat) :
    (partSizes size pSz ((size - 1) / pSz + 1)).sum = size := by
  have hmp : (size - 1) / pSz * pSz ≤ size := le_trans (Nat.div_mul_le_self _ _) (by omega)
  unfold partSizes
  simp only [Nat.add_sub_cancel]
  rw [List.range_succ, List.map_append, List.sum_append]
  have hconst : ((List.range ((size - 1) / pSz)).map
      (fun i => if i = (size - 1) / pSz then size - (size - 1) / pSz * pSz else pSz))
      = (List.range ((size - 1) / pSz)).map (fun _ => pSz) := by
    apply List.map_congr_left
    intro a ha
    have halt : a < (size - 1) / pSz := List.mem_range.mp ha
    rw [if_neg (by omega)]
  rw [hconst]
  have hrep : (List.range ((size - 1) / pSz)).map (fun _ => pSz)
      = List.replicate ((size - 1) / pSz) pSz := by
    rw [List.map_const']
    rw [List.length_range]
  rw [hrep, List.sum_replicate, smul_eq_mul]
  simp only [List.map_cons, List.map_nil, List.sum_cons, List.sum_nil, if_true]
  omega

/-- C7: a part of at most 32 MiB, or any part when the destination lacks
upload-part-copy, is transferred by a buffered GET and UploadPart against
the parent upload; otherwise an intermediate multipart upload is created
at `key.partN`, filled by ranged copies whose sizes sum to the part size,
completed, then a single UploadPartCopy is issued against the parent
upload and the staging key is deleted. -/
theorem doCopyRange_strategy (key upId tmpUpId : String)
    (off size num minPartSize maxCount : Nat) (support : Bool) :
    (size ≤ 32 * 1048576 ∨ support = false →
      doCopyRangeOps key off size upId num support tmpUpId minPartSize maxCount
        = [CopyOp.getRange key off size, CopyOp.uploadPart key upId (num + 1) size]) ∧
    (32 * 1048576 < size → support = true →
      doCopyRangeOps key off size upId num support tmpUpId minPartSize maxCount
        = CopyOp.createUpload (key ++ ".part" ++ toString num) ::
          (((List.range
                ((size - 1) / choosePartSize minPartSize maxCount size + 1)).map (fun i =>
              [CopyOp.getRange key (off + i * choosePartSize minPartSize maxCount size)
                ((partSizes size (choosePartSize minPartSize maxCount size)
                  ((size - 1) / choosePartSize minPartSize maxCount size + 1)).getD i 0),
               CopyOp.uploadPart (key ++ ".part" ++ toString num) tmpUpId (i + 1)
                ((partSizes size (choosePartSize minPartSize maxCount size)
                  ((size - 1) / choosePartSize minPartSize maxCount size + 1)).getD i 0)])).flatten
            ++ [CopyOp.completeUpload (key ++ ".part" ++ toString num) tmpUpId,
                CopyOp.uploadPartCopy key upId (num + 1) (key ++ ".part" ++ toString num) 0 size,
                CopyOp.deleteKey (key ++ ".part" ++ toString num)])) ∧
    ((partSizes size (choosePartSize minPartSize maxCount size)
        ((size - 1) / choosePartSize minPartSize maxCount size + 1)).sum = size) := by
  refine ⟨?_, ?_, partSizes_sum size _⟩
  · intro hc
    unfold doCopyRangeOps
    rw [if_pos hc]
    rfl
  · intro hsz hsup
    unfold doCopyRangeOps
    rw [if_neg (by push_neg; exact ⟨by omega, by simp [hsup]⟩)]
    simp only [doUploadPartOps]
    congr 1
    congr 1
    refine congrArg List.flatten ?_
    apply List.map_congr_left
    intro a ha
    have halt : a < (size - 1) / choosePartSize minPartSize maxCount size + 1 :=
      List.mem_range.mp ha
    have hgd : (partSizes size (choosePartSize minPartSize maxCount size)
        ((size - 1) / choosePartSize minPartSize maxCount size + 1)).getD a 0
        = (if a = ((size - 1) / choosePartSize minPartSize maxCount size + 1) - 1
           then size - (((size - 1) / choosePartSize minPartSize maxCount size + 1) - 1)
             * choosePartSize minPartSize maxCount size
           else choosePartSize minPartSize maxCount size) := by
      unfold partSizes
      rw [List.getD_eq_getElem?_getD, List.getElem?_map]
      rw [List.getElem?_range halt]
      rfl
    rw [hgd]

def kMain : String := "k"

def upMain : String := "u"

def upTmp : String := "t"

/-- Witness for `doCopyRange_strategy`: a 5-byte part goes through the
direct GET-and-UploadPart path. -/
theorem doCopyRange_strategy_witness :
    doCopyRangeOps kMain 0 5 upMain 0 false upTmp 0 1
      = [CopyOp.getRange kMain 0 5, CopyOp.uploadPart kMain upMain 1 5] :=
  (doCopyRange_strategy kMain upMain upTmp 0 5 0 0 1 false).1 (Or.inl (by omega))

/-- The error outcomes of a binary object comparison part
(`compObjPartBinary`, sync.go lines 362-407): the sentinel inequality, a
failed GET or chunk read on either side, or the abort signal. -/
inductive CmpErr where
  | notEqual
  | srcGet (tag : Nat)
  | dstGet (tag : Nat)
  | srcRead (tag : Nat)
  | dstRead (tag : Nat)
  | abortedErr
deriving DecidableEq, Repr

/-- The error kept by the part-collection loop of `compObjBinary` (lines
425-430): results are received in completion order and the loop stops at
the first non-nil error. -/
def firstErr : List (Option CmpErr) → Option CmpErr
  | [] => none
  | none :: rest => firstErr rest
  | some e :: _ => some e

/-- Transcription of the verdict conversion of `compObjBinary` (lines
432-438): `equal` is true only for a nil error; the sentinel
`bytes not equal` is converted to a nil error with `equal = false`; every
other error is returned as is. -/
def compObjBinaryRes (rs : List (Option CmpErr)) : Bool × Option CmpErr :=
  match firstErr rs with
  | none => (true, none)
  | some CmpErr.notEqual => (false, none)
  | some e => (false, some e)

/-- The chunk loop of `compObjPartBinary` (lines 389-405) on the bytes
actually read: compare buffers of `c` bytes at a time and stop with the
sentinel at the first differing chunk. -/
def compLoop (c : Nat) : List Nat → List Nat → Option CmpErr
  | [], _ => none
  | x :: xs, b =>
    if (x :: xs).take c = b.take c then compLoop c (xs.drop (c - 1)) (b.drop c)
    else some CmpErr.notEqual
termination_by a => a.length
decreasing_by
  simp only [List.length_cons, List.length_drop]
  omega

/-- The chunked comparison agrees with whole-sequence equality. -/
theorem compLoop_eq (c : Nat) (hc : 1 ≤ c) :
    ∀ (n : Nat) (a b : List Nat), a.length ≤ n → a.length = b.length →
    compLoop c a b = (if a = b then none else some CmpErr.notEqual) := by
  intro n
  induction n with
  | zero =>
    intro a b hn hlen
    cases a with
    | nil =>
      cases b with
      | nil => simp [compLoop]
      | cons y ys => simp at hlen
    | cons x xs => simp at hn
  | succ m ih =>
    intro a b hn hlen
    cases a with
    | nil =>
      cases b with
      | nil => simp [compLoop]
      | cons y ys => simp at hlen
    | cons x xs =>
      simp only [compLoop]
      by_cases ht : (x :: xs).take c = b.take c
      · rw [if_pos ht]
        have hdrop : (x :: xs).drop c = xs.drop (c - 1) := by
          cases c with
          | zero => omega
          | succ c2 => simp
        have hlc : (x :: xs).length = b.length := hlen
        simp only [List.length_cons] at hlc hn
        have hlen2 : (xs.drop (c - 1)).length = (b.drop c).length := by
          simp only [List.length_drop]
          omega
        have hle2 : (xs.drop (c - 1)).length ≤ m := by
          simp only [List.length_drop]
          omega
        rw [ih _ _ hle2 hlen2]
        by_cases heq : x :: xs = b
        · rw [if_pos ?_, if_pos heq]
          rw [← hdrop, heq]
        · rw [if_neg ?_, if_neg heq]
          intro hd
          apply heq
          have h1 : x :: xs = (x :: xs).take c ++ (x :: xs).drop c :=
            (List.take_append_drop c (x :: xs)).symm
          have h2 : b = b.take c ++ b.drop c := (List.take_append_drop c b).symm
          rw [h1, h2, ht, hdrop, hd]
      · rw [if_neg ht, if_neg ?_]
        intro heq
        exact ht (by rw [heq])

/-- C8: compObjBinary returns (true, nil) when every part comparison
succeeds; (false, nil) when the first failure in completion order is the
sentinel "bytes not equal"; and (false, the error) for any other get or
read error; and the underlying chunk loop flags exactly the byte-unequal
pairs. -/
theorem compObjBinary_spec (rs : List (Option CmpErr)) (c : Nat) (a b : List Nat)
    (hc : 1 ≤ c) (hlen : a.length = b.length) :
    (firstErr rs = none → compObjBinaryRes rs = (true, none)) ∧
    (firstErr rs = some CmpErr.notEqual → compObjBinaryRes rs = (false, none)) ∧
    (∀ e, firstErr rs = some e → e ≠ CmpErr.notEqual →
      compObjBinaryRes rs = (false, some e)) ∧
    (compLoop c a b = (if a = b then none else some CmpErr.notEqual)) := by
  refine ⟨?_, ?_, ?_, compLoop_eq c hc a.length a b (le_refl _) hlen⟩
  · intro h
    simp [compObjBinaryRes, h]
  · intro h
    simp [compObjBinaryRes, h]
  · intro e h hne
    cases e with
    | notEqual => exact absurd rfl hne
    | srcGet t => simp [compObjBinaryRes, h]
    | dstGet t => simp [compObjBinaryRes, h]
    | srcRead t => simp [compObjBinaryRes, h]
    | dstRead t => simp [compObjBinaryRes, h]
    | abortedErr => simp [compObjBinaryRes, h]

/-- Witness for `compObjBinary_spec`: two 3-byte buffers differing in the
last byte yield the sentinel from the chunk loop. -/
theorem compObjBinary_spec_witness :
    compLoop 32768 [1, 2, 3] [1, 2, 4]
      = (if ([1, 2, 3] : List Nat) = [1, 2, 4] then none else some CmpErr.notEqual) :=
  (compObjBinary_spec [] 32768 [1, 2, 3] [1, 2, 4] (by decide) (by decide)).2.2.2

/-- Byte-wise string comparison, as `sort.Strings` orders keys (keys are
UTF-8 byte lists; byte-wise order equals Go string order). -/
def bytesLe : List Nat → List Nat → Bool
  | [], _ => true
  | _ :: _, [] => false
  | a :: as, b :: bs => if a < b then true else if b < a then false else bytesLe as bs

/-- Insertion step of an ascending sort under `bytesLe`. -/
def insertKey (x : List Nat) : List (List Nat) → List (List Nat)
  | [] => [x]
  | y :: ys => if bytesLe x y then x :: y :: ys else y :: insertKey x ys

/-- Ascending sort under `bytesLe`; extensionally `sort.Strings` (any
correct sort produces the same list for the same multiset of keys). -/
def sortKeys : List (List Nat) → List (List Nat)
  | [] => []
  | x :: xs => insertKey x (sortKeys xs)

/-- Transcription of the deferred directory deletion order of `Sync`
(sync.go lines 1800-1824): `sort.Strings(keys)` ascending, then delete
from the last index down to 0 -- the reverse of the ascending sort. -/
def delayDelOrder (ks : List (List Nat)) : List (List Nat) :=
  (sortKeys ks).reverse

theorem bytesLe_total : ∀ a b : List Nat, bytesLe a b = true ∨ bytesLe b a = true := by
  intro a
  induction a with
  | nil => intro b; exact Or.inl rfl
  | cons x xs ih =>
    intro b
    cases b with
    | nil => exact Or.inr rfl
    | cons y ys =>
      rcases Nat.lt_trichotomy x y with h | h | h
      · left; simp [bytesLe, h]
      · subst h
        rcases ih ys with h2 | h2
        · left; simp [bytesLe, h2]
        · right; simp [bytesLe, h2]
      · right; simp [bytesLe, h]

theorem bytesLe_trans : ∀ a b c : List Nat, bytesLe a b = true → bytesLe b c = true →
    bytesLe a c = true := by
  intro a
  induction a with
  | nil => intro b c _ _; exact rfl
  | cons x xs ih =>
    intro b c hab hbc
    cases b with
    | nil => simp [bytesLe] at hab
    | cons y ys =>
      cases c with
      | nil => simp [bytesLe] at hbc
      | cons z zs =>
        simp only [bytesLe] at hab hbc ⊢
        split_ifs at hab hbc ⊢ <;>
          first
            | rfl
            | omega
            | exact ih ys zs hab hbc

theorem insertKey_perm (x : List Nat) : ∀ l, (insertKey x l).Perm (x :: l) := by
  intro l
  induction l with
  | nil => exact List.Perm.refl _
  | cons y ys ih =>
    simp only [insertKey]
    split_ifs
    · exact List.Perm.refl _
    · exact (List.Perm.cons y ih).trans (List.Perm.swap x y ys)

theorem sortKeys_perm : ∀ l, (sortKeys l).Perm l := by
  intro l
  induction l with
  | nil => exact List.Perm.refl _
  | cons x xs ih =>
    exact (insertKey_perm x (sortKeys xs)).trans (List.Perm.cons x ih)

theorem pairwise_insertKey (x : List Nat) :
    ∀ l, l.Pairwise (fun a b => bytesLe a b = true) →
    (insertKey x l).Pairwise (fun a b => bytesLe a b = true) := by
  intro l
  induction l with
  | nil => intro _; simp [insertKey]
  | cons y ys ih =>
    intro hpw
    rw [List.pairwise_cons] at hpw
    obtain ⟨hy, hys⟩ := hpw
    simp only [insertKey]
    split_ifs with hxy
    · rw [List.pairwise_cons]
      refine ⟨?_, List.pairwise_cons.mpr ⟨hy, hys⟩⟩
      intro z hz
      rcases List.mem_cons.mp hz with rfl | hzt
      · exact hxy
      · exact bytesLe_trans x y z hxy (hy z hzt)
    · rw [List.pairwise_cons]
      refine ⟨?_, ih hys⟩
      intro z hz
      have hz2 : z = x ∨ z ∈ ys := List.mem_cons.mp ((insertKey_perm x ys).mem_iff.mp hz)
      rcases hz2 with rfl | hzt
      · rcases bytesLe_total z y with h2 | h2
        · exact absurd h2 (by simpa using hxy)
        · exact h2
      · exact hy z hzt

theorem sortKeys_pairwise : ∀ l, (sortKeys l).Pairwise (fun a b => bytesLe a b = true) := by
  intro l
  induction l with
  | nil => simp [sortKeys]
  | cons x xs ih => exact pairwise_insertKey x (sortKeys xs) ih

/-- In a list whose elements are pairwise related by `P` in position
order, an element related to another one (and not conversely) occurs
before it: the ordered pair is a sublist. -/
theorem pairwise_sublist_pair {α : Type} (P : α → α → Prop) :
    ∀ (l : List α), l.Pairwise P → ∀ x y, x ∈ l → y ∈ l → P x y → ¬P y x →
    List.Sublist [x, y] l := by
  intro l
  induction l with
  | nil => intro _ x y hx; simp at hx
  | cons h t ih =>
    intro hpw x y hx hy hxy hnyx
    rw [List.pairwise_cons] at hpw
    obtain ⟨hh, hpt⟩ := hpw
    rcases List.mem_cons.mp hx with rfl | hxt
    · have hyt : y ∈ t := by
        rcases List.mem_cons.mp hy with rfl | h2
        · exact absurd hxy hnyx
        · exact h2
      exact List.Sublist.cons₂ x (List.singleton_sublist.mpr hyt)
    · rcases List.mem_cons.mp hy with rfl | hyt
      · exact absurd (hh x hxt) hnyx
      · exact List.Sublist.cons h (ih hpt x y hxt hyt hxy hnyx)

/-- A strict prefix is strictly below its extension in byte order. -/
theorem bytesLe_of_isPre : ∀ (a b : List Nat), a <+: b → a ≠ b →
    bytesLe a b = true ∧ bytesLe b a = false := by
  intro a
  induction a with
  | nil =>
    intro b _ hne
    cases b with
    | nil => exact absurd rfl hne
    | cons y ys => exact ⟨rfl, rfl⟩
  | cons x xs ih =>
    intro b hp hne
    obtain ⟨c, hc⟩ := hp
    subst hc
    have hxne : xs ≠ xs ++ c := by
      intro h2
      exact hne (by rw [List.cons_append, ← h2])
    have hpre : xs <+: xs ++ c := ⟨c, rfl⟩
    obtain ⟨h1, h2⟩ := ih (xs ++ c) hpre hxne
    rw [List.cons_append]
    constructor
    · simp only [bytesLe]
      rw [if_neg (lt_irrefl x), if_neg (lt_irrefl x)]
      exact h1
    · simp only [bytesLe]
      rw [if_neg (lt_irrefl x), if_neg (lt_irrefl x)]
      exact h2

/-- C9: the deferred directory deletions of a side execute in strictly
descending byte order (sorted ascending, deleted from the back), the
deletion order is a permutation of the stashed keys, and a directory whose
key is a strict prefix of another stashed key (its parent) is deleted
after it: children are deleted before their parents. -/
theorem delayDel_descending (ks : List (List Nat)) (hnd : ks.Nodup) :
    (delayDelOrder ks).Pairwise (fun a b => bytesLe b a = true ∧ a ≠ b) ∧
    (delayDelOrder ks).Perm ks ∧
    (∀ a b, a ∈ ks → b ∈ ks → a ≠ b → a <+: b → List.Sublist [b, a] (delayDelOrder ks)) := by
  have hperm : (sortKeys ks).Perm ks := sortKeys_perm ks
  have hrevperm : (delayDelOrder ks).Perm ks :=
    ((sortKeys ks).reverse_perm).trans hperm
  have hsorted := sortKeys_pairwise ks
  have hndsort : (sortKeys ks).Nodup := hperm.nodup_iff.mpr hnd
  have hpw1 : (delayDelOrder ks).Pairwise (fun a b => bytesLe b a = true) := by
    unfold delayDelOrder
    rw [List.pairwise_reverse]
    exact hsorted
  have hpw2 : (delayDelOrder ks).Nodup := by
    unfold delayDelOrder
    rw [List.nodup_reverse]
    exact hndsort
  have hpw : (delayDelOrder ks).Pairwise (fun a b => bytesLe b a = true ∧ a ≠ b) :=
    hpw1.and hpw2
  refine ⟨hpw, hrevperm, ?_⟩
  intro a b ha hb hne hpre
  obtain ⟨hle, hgt⟩ := bytesLe_of_isPre a b hpre hne
  refine pairwise_sublist_pair _ _ hpw b a
    (hrevperm.mem_iff.mpr hb) (hrevperm.mem_iff.mpr ha) ⟨hle, fun h2 => hne h2.symm⟩ ?_
  intro hP
  rw [hP.1] at hgt
  exact Bool.noConfusion hgt

/-- Witness for `delayDel_descending`: with keys 0x01 (the parent) and
0x01 0x02 (the child), the child is deleted first. -/
theorem delayDel_descending_witness :
    List.Sublist [[1, 2], [1]] (delayDelOrder [[1], [1, 2]]) :=
  (delayDel_descending [[1], [1, 2]] (by decide)).2.2 [1] [1, 2]
    (by decide) (by decide) (by decide) ⟨[2], rfl⟩
